import Mathlib

/-!
Verification of the THPS2 PKR volume-adjuster codec.

The development shallowly embeds the Python sources:
* `repack_pkr.py`  — the archive writer (`repack_pkr` below),
* `extract_pkr.py` — the archive reader (`extract_pkr` below),
* `adjust_wav_volume.py` — the volume transform (`adjust_volume` below).

Byte strings are modelled as `List Nat`; file names are byte lists as well
(Python compares and sorts `str`/`bytes` by code points, which agrees with the
lexicographic order on `List Nat`).  The binary I/O primitives of `common.py`
are not part of the sources and are modelled from the specification where
noted.
-/

abbrev Bytes := List Nat

/-- Little-endian encoding of the low 32 bits of a natural number.
Modelled from the spec: common.py `write32` writes an unsigned 32-bit
little-endian integer. -/
def le32 (n : Nat) : Bytes :=
  [n % 256, n / 256 % 256, n / 65536 % 256, n / 16777216 % 256]

/-- Decoding of a 4-byte little-endian field.
Modelled from the spec: common.py `read32` decodes an unsigned 32-bit
little-endian integer. -/
def rd32 (b : Bytes) : Nat :=
  b.getD 0 0 + 256 * b.getD 1 0 + 65536 * b.getD 2 0 + 16777216 * b.getD 3 0

/-- Fixed-width text encoding: pad with null bytes to width `n`, truncating
without error when longer.  Modelled from the spec: common.py `write_string`. -/
def padTrunc (s : Bytes) (n : Nat) : Bytes :=
  s.take n ++ List.replicate (n - s.length) 0

/-- Fixed-width text decoding: the logical string stops at the first null byte.
Modelled from the spec: common.py `read_string`. -/
def decodeStr (b : Bytes) : Bytes :=
  b.takeWhile (fun c => c ≠ 0)

/-! ### Writer-side stream (`open(output, "wb")`, `seek`, `write`) -/

structure WFile where
  data : Bytes
  pos : Nat
deriving DecidableEq

/-- Zero-fill `data` up to length `p` (POSIX behaviour when writing past EOF). -/
def padTo (data : Bytes) (p : Nat) : Bytes :=
  data ++ List.replicate (p - data.length) 0

def WFile.write (f : WFile) (bs : Bytes) : WFile :=
  ⟨(padTo f.data f.pos).take f.pos ++ bs ++ f.data.drop (f.pos + bs.length),
   f.pos + bs.length⟩

def WFile.seek (f : WFile) (p : Nat) : WFile := ⟨f.data, p⟩

def WFile.write32 (f : WFile) (n : Nat) : WFile := f.write (le32 n)

def WFile.writeStr (f : WFile) (s : Bytes) (n : Nat) : WFile := f.write (padTrunc s n)

/-! ### The walk of the input tree (`os.walk` output, lines 33–53) -/

/-- One directory visited by `os.walk`: its path relative to the input root
(`[46]`, i.e. `"."`, for the root itself, `/`-separated otherwise) and the
plain files directly inside it, each with its byte content (`os.path.getsize`
is the content's length). -/
structure WalkEntry where
  rel : Bytes
  files : List (Bytes × Bytes)
deriving DecidableEq

/-- Lines 34–37: the canonical PKR directory name — `'/'` for the root,
otherwise the relative path with a trailing slash ensured. -/
def pkrDirName (rel : Bytes) : Bytes :=
  let d := if rel = [46] then [47] else rel
  if d = [47] ∨ d.getLast? = some 47 then d else d ++ [47]

/-- Line 44: hidden files (name beginning with `'.'`, byte 46) are excluded. -/
def notHidden (name : Bytes) : Bool :=
  match name with
  | 46 :: _ => false
  | _ => true

def visFiles (e : WalkEntry) : List (Bytes × Bytes) :=
  e.files.filter (fun f => notHidden f.1)

/-- One record of `all_files_info` (line 26): owning PKR directory name, file
name and byte content (whose length plays the role of `file_size`). -/
structure FileInfo where
  dir : Bytes
  name : Bytes
  content : Bytes
deriving DecidableEq

def fInfos (e : WalkEntry) : List FileInfo :=
  (visFiles e).map (fun p => ⟨pkrDirName e.rel, p.1, p.2⟩)

/-- Lines 40–47: `temp_dirs` is a dict from PKR directory name to the file
names collected so far; an existing key is extended, a new key appended. -/
def dictExtend (d : List (Bytes × List Bytes)) (k : Bytes) (vs : List Bytes) :
    List (Bytes × List Bytes) :=
  match d with
  | [] => [(k, vs)]
  | (k', vs') :: rest =>
    if k' = k then (k', vs' ++ vs) :: rest else (k', vs') :: dictExtend rest k vs

/-- Lines 33–47: the `temp_dirs` dict after the walk. -/
def collectTD (walk : List WalkEntry) : List (Bytes × List Bytes) :=
  walk.foldl (fun td e => dictExtend td (pkrDirName e.rel) ((visFiles e).map Prod.fst)) []

/-- Lines 49–53: `all_files_info` in walk order. -/
def collectAFI (walk : List WalkEntry) : List FileInfo :=
  walk.foldl (fun a e => a ++ fInfos e) []

/-- Generic association-list lookup, the model of a Python dict read. -/
def dictFind {α : Type} : List (Bytes × α) → Bytes → Option α
  | [], _ => none
  | (k, v) :: rest, key => if k = key then some v else dictFind rest key

/-- Line 57 and 59: directory names and the file names inside each directory
are sorted (`sorted`). -/
def sortBytes (l : List Bytes) : List Bytes :=
  List.insertionSort (· ≤ ·) l

/-- Lines 57–59: `dirs_to_pack`, the sorted directory names each paired with
its sorted file-name list. -/
def dirsToPack (td : List (Bytes × List Bytes)) : List (Bytes × List Bytes) :=
  (sortBytes (td.map Prod.fst)).map (fun n => (n, sortBytes ((dictFind td n).getD [])))

/-- Line 62's sort key `(x[0], x[1])` as a relation on `FileInfo`. -/
def fiLe (a b : FileInfo) : Prop :=
  a.dir < b.dir ∨ (a.dir = b.dir ∧ a.name ≤ b.name)

instance : DecidableRel fiLe := fun a b =>
  inferInstanceAs (Decidable (a.dir < b.dir ∨ (a.dir = b.dir ∧ a.name ≤ b.name)))

instance : IsTotal FileInfo fiLe where
  total a b := by
    rcases lt_trichotomy a.dir b.dir with h | h | h
    · exact Or.inl (Or.inl h)
    · rcases le_total a.name b.name with h2 | h2
      · exact Or.inl (Or.inr ⟨h, h2⟩)
      · exact Or.inr (Or.inr ⟨h.symm, h2⟩)
    · exact Or.inr (Or.inl h)

instance : IsTrans FileInfo fiLe where
  trans a b c hab hbc := by
    rcases hab with h1 | ⟨e1, n1⟩ <;> rcases hbc with h2 | ⟨e2, n2⟩
    · exact Or.inl (lt_trans h1 h2)
    · exact Or.inl (e2 ▸ h1)
    · exact Or.inl (e1 ▸ h2)
    · exact Or.inr ⟨e1.trans e2, le_trans n1 n2⟩

/-- Line 62: `all_files_info.sort(key=lambda x: (x[0], x[1]))`. -/
def sortedFiles (afi : List FileInfo) : List FileInfo :=
  List.insertionSort fiLe afi

/-! ### Layout plan (lines 66–89) -/

def dirOffsetsAux : List (Bytes × List Bytes) → Nat → List (Bytes × Nat)
  | [], _ => []
  | (d, fs) :: rest, cur => (d, cur) :: dirOffsetsAux rest (cur + 48 * fs.length)

/-- Lines 71–83: each directory's file table is placed after the 16-byte
header and the 40-byte-per-entry directory table, advancing by 48 bytes per
file, in directory-sort order. -/
def dirOffsets (dtp : List (Bytes × List Bytes)) : List (Bytes × Nat) :=
  dirOffsetsAux dtp (16 + 40 * dtp.length)

def totalFileTablesSize (dtp : List (Bytes × List Bytes)) : Nat :=
  dtp.foldl (fun s p => s + 48 * p.2.length) 0

/-- Lines 85–89: `file_data_offsets = {}` followed by a loop whose body only
computes `file_key` and advances `current_data_offset`; no assignment into the
dict ever happens, so the resulting dict is the one created on line 85. -/
def fileDataOffsets (afi : List FileInfo) (start : Nat) : List (Bytes × Nat) :=
  (afi.foldl (fun st fi => ((st.1 : List (Bytes × Nat)), st.2 + fi.content.length))
    (([] : List (Bytes × Nat)), start)).1

/-- Lines 88, 116, 132: `os.path.join(pkr_dir_name, file_name)` with forward
slashes — concatenation, inserting a slash when the directory name does not
already end with one. -/
def joinKey (d n : Bytes) : Bytes :=
  if d.getLast? = some 47 then d ++ n else d ++ [47] ++ n

/-! ### Emission (lines 91–151); a dict `KeyError` aborts into the generic
`except Exception` handler on line 156, so the writer runs in `Except`,
the error carrying the stream state already written at the crash. -/

def foldlE {σ α ε : Type} (g : σ → α → Except ε σ) : σ → List α → Except ε σ
  | s, [] => Except.ok s
  | s, a :: l =>
    match g s a with
    | Except.ok s' => foldlE g s' l
    | Except.error e => Except.error e

/-- Lines 93–97: magic, version, directory count, total file count. -/
def writeHeader (f : WFile) (nd nf : Nat) : WFile :=
  (((f.write32 0x32524B50).write32 0x00000001).write32 nd).write32 nf

/-- Lines 100–107: the directory table — name padded to 32 bytes, the planned
file-table offset, the file count. -/
def writeDirTable (f : WFile) (dtp : List (Bytes × List Bytes))
    (dofs : List (Bytes × Nat)) : Except WFile WFile :=
  foldlE (fun f p =>
    match dictFind dofs p.1 with
    | some off => Except.ok (((f.writeStr p.1 32).write32 off).write32 p.2.length)
    | none => Except.error f) f dtp

/-- Lines 115–127: one file-table record.  `file_info` is looked up in the
sorted `all_files_info` (line 117); the payload offset is then fetched from
`file_data_offsets` (line 120) — a `KeyError` there aborts — and the record
written is name, marker `0xFFFFFFFE`, size, size (lines 122–125). -/
def writeOneEntry (afi : List FileInfo) (fdo : List (Bytes × Nat)) (d : Bytes)
    (f : WFile) (fname : Bytes) : Except WFile WFile :=
  let key := joinKey d fname
  match afi.find? (fun fi => joinKey fi.dir fi.name == key) with
  | some fi =>
    match dictFind fdo key with
    | some _off =>
      Except.ok ((((f.writeStr fname 32).write32 0xFFFFFFFE).write32
        fi.content.length).write32 fi.content.length)
    | none => Except.error f
  | none => Except.ok f

/-- Lines 109–127: seek to each directory's planned offset and emit its file
table. -/
def writeFileTables (f0 : WFile) (dtp : List (Bytes × List Bytes))
    (dofs : List (Bytes × Nat)) (afi : List FileInfo)
    (fdo : List (Bytes × Nat)) : Except WFile WFile :=
  foldlE (fun f p =>
    match dictFind dofs p.1 with
    | some off => foldlE (writeOneEntry afi fdo p.1) (f.seek off) p.2
    | none => Except.error f) f0 dtp

/-- Lines 129–148: seek to the payload region and write each file's bytes; the
payload offset is fetched from `file_data_offsets` (line 133) — a `KeyError`
there aborts — and the position corrected when it disagrees (lines 134–136). -/
def writePayload (f0 : WFile) (afi : List FileInfo) (fdo : List (Bytes × Nat))
    (dataStart : Nat) : Except WFile WFile :=
  foldlE (fun f fi =>
    match dictFind fdo (joinKey fi.dir fi.name) with
    | some off =>
      let f1 := if f.pos = off then f else f.seek off
      Except.ok (f1.write fi.content)
    | none => Except.error f) (f0.seek dataStart) afi

/-- Lines 64–160 after the walk data is in hand: plan the layout and emit.
Returns the success flag and the bytes of the output file. -/
def repackCore (dtp : List (Bytes × List Bytes)) (afiS : List FileInfo)
    (nf : Nat) : Bool × Bytes :=
  let dofs := dirOffsets dtp
  let dataStart := 16 + 40 * dtp.length + totalFileTablesSize dtp
  let fdo := fileDataOffsets afiS dataStart
  let f := writeHeader ⟨[], 0⟩ dtp.length nf
  match writeDirTable f dtp dofs with
  | Except.error fe => (false, fe.data)
  | Except.ok f =>
    match writeFileTables f dtp dofs afiS fdo with
    | Except.error fe => (false, fe.data)
    | Except.ok f =>
      match writePayload f afiS fdo dataStart with
      | Except.error fe => (false, fe.data)
      | Except.ok f => (true, f.data)

/-- Lines 15–160: `repack_pkr`, for an input tree given as its walk listing.
The result is the Python return value together with the bytes written to the
output archive (the model assumes the output file itself opened successfully;
the claim-relevant failures are the ones occurring after that point). -/
def repack_pkr (walk : List WalkEntry) : Bool × Bytes :=
  repackCore (dirsToPack (collectTD walk)) (sortedFiles (collectAFI walk))
    (collectAFI walk).length

/-! ### Reader-side stream (`open(pkr, "rb")`, `seek`, `read`) -/

structure RFile where
  data : Bytes
  pos : Nat
deriving DecidableEq

def RFile.seek (f : RFile) (p : Nat) : RFile := ⟨f.data, p⟩

/-- Python `f.read(n)`: up to `n` bytes, short at end of stream, advancing by
the number of bytes actually read. -/
def RFile.readRaw (f : RFile) (n : Nat) : Bytes × RFile :=
  let bs := (f.data.drop f.pos).take n
  (bs, ⟨f.data, f.pos + bs.length⟩)

/-- Modelled from the spec: common.py `read32` consumes exactly 4 bytes and
fails on a short read. -/
def RFile.read32 (f : RFile) : Option (Nat × RFile) :=
  if f.pos + 4 ≤ f.data.length then
    some (rd32 ((f.data.drop f.pos).take 4), ⟨f.data, f.pos + 4⟩)
  else none

/-- Modelled from the spec: common.py `read_string` consumes exactly `n`
bytes, fails on a short read, and discards everything from the first null. -/
def RFile.readStr (f : RFile) (n : Nat) : Option (Bytes × RFile) :=
  if f.pos + n ≤ f.data.length then
    some (decodeStr ((f.data.drop f.pos).take n), ⟨f.data, f.pos + n⟩)
  else none

/-- Diagnostics printed by `extract_pkr` (lines 28–29, 63–64, 68–69, 81–82). -/
inductive Warn
  | badMagicVersion (magic version : Nat)
  | badMarker (v : Nat)
  | sizeMismatch (s1 s2 : Nat)
  | shortPayload (got expected : Nat)
deriving DecidableEq

/-- Lines 22–25: the 16-byte header. -/
def readHeader (f : RFile) : Option (Nat × Nat × Nat × Nat × RFile) := do
  let (m, f) ← f.read32
  let (v, f) ← f.read32
  let (nd, f) ← f.read32
  let (nf, f) ← f.read32
  some (m, v, nd, nf, f)

structure DirEntry where
  name : Bytes
  off : Nat
  count : Nat
deriving DecidableEq

/-- Lines 37–43: the directory table is read in full before any extraction. -/
def readDirEntries : RFile → Nat → Option (List DirEntry × RFile)
  | f, 0 => some ([], f)
  | f, n + 1 => do
    let (nm, f) ← f.readStr 32
    let (off, f) ← f.read32
    let (cnt, f) ← f.read32
    let (rest, f) ← readDirEntries f n
    some (DirEntry.mk nm off cnt :: rest, f)

/-- Lines 60–86: one FileEntry — parse the five fields, warn on an unexpected
marker or mismatched sizes, save the cursor, seek to the payload, read `size1`
bytes (warning when short), write them out, and restore the cursor. -/
def extractOneFile (f : RFile) : Option ((Bytes × Bytes) × List Warn × RFile) := do
  let (fname, f) ← f.readStr 32
  let (unk1, f) ← f.read32
  let w1 := if unk1 ≠ 0xFFFFFFFE then [Warn.badMarker unk1] else []
  let (off, f) ← f.read32
  let (s1, f) ← f.read32
  let (s2, f) ← f.read32
  let w2 := if s1 ≠ s2 then [Warn.sizeMismatch s1 s2] else []
  let cur := f.pos
  let f := f.seek off
  let (dat, f) := f.readRaw s1
  let w3 := if dat.length ≠ s1 then [Warn.shortPayload dat.length s1] else []
  let f := f.seek cur
  some ((fname, dat), w1 ++ w2 ++ w3, f)

/-- Lines 60–86 iterated over a directory's `count` entries.  A failed table
read aborts (the Python exception), but the files already extracted remain on
disk — they are kept in the first component, and the third component is `none`
exactly when the loop aborted. -/
def extractFilesLoop : RFile → Nat → List (Bytes × Bytes) × List Warn × Option RFile
  | f, 0 => ([], [], some f)
  | f, n + 1 =>
    match extractOneFile f with
    | none => ([], [], none)
    | some (fl, w, f) =>
      let r := extractFilesLoop f n
      (fl :: r.1, w ++ r.2.1, r.2.2)

/-- Lines 45–86: for each directory entry, create its directory, seek to its
file-table offset and extract its files.  The Boolean records whether the run
completed without the Python exception. -/
def processDirs : RFile → List DirEntry →
    List (Bytes × List (Bytes × Bytes)) × List Warn × Bool
  | _, [] => ([], [], true)
  | f, e :: rest =>
    let r := extractFilesLoop (f.seek e.off) e.count
    match r.2.2 with
    | none => ([(e.name, r.1)], r.2.1, false)
    | some f =>
      let r2 := processDirs f rest
      ((e.name, r.1) :: r2.1, r.2.1 ++ r2.2.1, r2.2.2)

/-- Lines 9–122: `extract_pkr` on the archive bytes.  Returns the Python
return value, the warnings issued, and for each directory entry the directory
created together with the files written into it (name and byte content). -/
def extract_pkr (b : Bytes) : Bool × List Warn × List (Bytes × List (Bytes × Bytes)) :=
  match readHeader ⟨b, 0⟩ with
  | none => (false, [], [])
  | some (magic, version, nd, _nf, f) =>
    let w0 := if magic ≠ 0x32524B50 ∨ version ≠ 0x00000001 then
      [Warn.badMagicVersion magic version] else []
    match readDirEntries f nd with
    | none => (false, w0, [])
    | some (entries, f) =>
      let r := processDirs f entries
      (r.2.2, w0 ++ r.2.1, r.1)

/-! ### Pure views of a FileEntry's fields at stream position `f.pos` -/

def entryName (f : RFile) : Bytes := decodeStr ((f.data.drop f.pos).take 32)

def entryMarker (f : RFile) : Nat := rd32 ((f.data.drop (f.pos + 32)).take 4)

def entryOff (f : RFile) : Nat := rd32 ((f.data.drop (f.pos + 36)).take 4)

def entryS1 (f : RFile) : Nat := rd32 ((f.data.drop (f.pos + 40)).take 4)

def entryS2 (f : RFile) : Nat := rd32 ((f.data.drop (f.pos + 44)).take 4)

def entryPayload (f : RFile) : Bytes := (f.data.drop (entryOff f)).take (entryS1 f)

/-! ### adjust_wav_volume.py -/

structure WavParams where
  nchannels : Nat
  sampwidth : Nat
  framerate : Nat
  nframes : Nat
  comptype : String
  compname : String
deriving DecidableEq

/-- Line 33: `np.frombuffer(frames, dtype=np.int16)` — consecutive byte pairs
decoded as little-endian signed 16-bit samples. -/
def bytesToSamples : Bytes → List Int
  | lo :: hi :: rest =>
    (let u := lo + 256 * hi
     if u < 32768 then (u : Int) else (u : Int) - 65536) :: bytesToSamples rest
  | _ => []

/-- Encoding of one 16-bit sample (`tobytes`, line 43). -/
def sampleToBytes (v : Int) : Bytes :=
  [(v % 65536).toNat % 256, (v % 65536).toNat / 256]

def samplesToBytes (l : List Int) : Bytes :=
  (l.map sampleToBytes).foldr (· ++ ·) []

/-- Lines 37–39: `np.clip(x, -32768, 32767)`. -/
def clip16 (x : ℚ) : ℚ := max (-32768) (min 32767 x)

/-- Line 41: `astype(np.int16)` on a clipped float — truncation toward zero. -/
def qtrunc (x : ℚ) : Int := if 0 ≤ x then ⌊x⌋ else ⌈x⌉

/-- Lines 10–50 of adjust_wav_volume.py, as a transform on the declared WAV
parameters and the raw frame buffer.  A non-`NONE` compression type returns
`False` (line 25–27); a frame buffer whose length is not a multiple of the
int16 item size makes `np.frombuffer` raise, caught by the generic handler
(lines 58–62).  Otherwise the buffer is reinterpreted as 16-bit samples
regardless of `sampwidth`, scaled, clipped and written back under the
original parameters. -/
def adjust_volume (p : WavParams) (frames : Bytes) (factor : ℚ) :
    Option (WavParams × Bytes) :=
  if p.comptype ≠ "NONE" then none
  else if frames.length % 2 ≠ 0 then none
  else some (p, samplesToBytes
    ((bytesToSamples frames).map (fun s => qtrunc (clip16 (s * factor)))))

/-! ### Canonical forms for stating enumeration-order independence (C5).
These are specification-side: a walk listing is an enumeration of an abstract
tree, and two listings enumerate the same tree exactly when their canonical
images (directory name with sorted visible files) are permutations of each
other. -/

open List

/-- Full lexicographic order on (name, content) pairs (an antisymmetric key). -/
def pairLe (a b : Bytes × Bytes) : Prop :=
  a.1 < b.1 ∨ (a.1 = b.1 ∧ a.2 ≤ b.2)

instance : DecidableRel pairLe := fun a b =>
  inferInstanceAs (Decidable (a.1 < b.1 ∨ (a.1 = b.1 ∧ a.2 ≤ b.2)))

instance : IsTotal (Bytes × Bytes) pairLe where
  total a b := by
    rcases lt_trichotomy a.1 b.1 with h | h | h
    · exact Or.inl (Or.inl h)
    · rcases le_total a.2 b.2 with h2 | h2
      · exact Or.inl (Or.inr ⟨h, h2⟩)
      · exact Or.inr (Or.inr ⟨h.symm, h2⟩)
    · exact Or.inr (Or.inl h)

instance : IsTrans (Bytes × Bytes) pairLe where
  trans a b c hab hbc := by
    rcases hab with h1 | ⟨e1, n1⟩ <;> rcases hbc with h2 | ⟨e2, n2⟩
    · exact Or.inl (lt_trans h1 h2)
    · exact Or.inl (e2 ▸ h1)
    · exact Or.inl (e1 ▸ h2)
    · exact Or.inr ⟨e1.trans e2, le_trans n1 n2⟩

instance : IsAntisymm (Bytes × Bytes) pairLe where
  antisymm a b hab hba := by
    rcases hab with h1 | ⟨e1, n1⟩ <;> rcases hba with h2 | ⟨e2, n2⟩
    · exact absurd h2 (lt_asymm h1)
    · exact absurd h1 (e2 ▸ lt_irrefl _)
    · exact absurd h2 (e1 ▸ lt_irrefl _)
    · exact Prod.ext e1 (le_antisymm n1 n2)

def sortPairs (l : List (Bytes × Bytes)) : List (Bytes × Bytes) :=
  List.insertionSort pairLe l

/-- Canonical image of one walked directory: its PKR name together with its
visible files sorted by (name, content). -/
def canonE (e : WalkEntry) : Bytes × List (Bytes × Bytes) :=
  (pkrDirName e.rel, sortPairs (visFiles e))

/-- Full lexicographic order on `FileInfo` (an antisymmetric key). -/
def fiLex (a b : FileInfo) : Prop :=
  a.dir < b.dir ∨ (a.dir = b.dir ∧
    (a.name < b.name ∨ (a.name = b.name ∧ a.content ≤ b.content)))

instance : DecidableRel fiLex := fun a b =>
  inferInstanceAs (Decidable (a.dir < b.dir ∨ (a.dir = b.dir ∧
    (a.name < b.name ∨ (a.name = b.name ∧ a.content ≤ b.content)))))

instance : IsTotal FileInfo fiLex where
  total a b := by
    rcases lt_trichotomy a.dir b.dir with h | h | h
    · exact Or.inl (Or.inl h)
    · rcases lt_trichotomy a.name b.name with h2 | h2 | h2
      · exact Or.inl (Or.inr ⟨h, Or.inl h2⟩)
      · rcases le_total a.content b.content with h3 | h3
        · exact Or.inl (Or.inr ⟨h, Or.inr ⟨h2, h3⟩⟩)
        · exact Or.inr (Or.inr ⟨h.symm, Or.inr ⟨h2.symm, h3⟩⟩)
      · exact Or.inr (Or.inr ⟨h.symm, Or.inl h2⟩)
    · exact Or.inr (Or.inl h)

instance : IsTrans FileInfo fiLex where
  trans a b c hab hbc := by
    rcases hab with h1 | ⟨e1, h1⟩ <;> rcases hbc with h2 | ⟨e2, h2⟩
    · exact Or.inl (lt_trans h1 h2)
    · exact Or.inl (e2 ▸ h1)
    · exact Or.inl (e1 ▸ h2)
    · refine Or.inr ⟨e1.trans e2, ?_⟩
      rcases h1 with h1 | ⟨f1, g1⟩ <;> rcases h2 with h2 | ⟨f2, g2⟩
      · exact Or.inl (lt_trans h1 h2)
      · exact Or.inl (f2 ▸ h1)
      · exact Or.inl (f1 ▸ h2)
      · exact Or.inr ⟨f1.trans f2, le_trans g1 g2⟩

instance : IsAntisymm FileInfo fiLex where
  antisymm a b hab hba := by
    rcases hab with h1 | ⟨e1, h1⟩ <;> rcases hba with h2 | ⟨e2, h2⟩
    · exact absurd h2 (lt_asymm h1)
    · exact absurd h1 (e2 ▸ lt_irrefl _)
    · exact absurd h2 (e1 ▸ lt_irrefl _)
    · rcases h1 with h1 | ⟨f1, g1⟩ <;> rcases h2 with h2 | ⟨f2, g2⟩
      · exact absurd h2 (lt_asymm h1)
      · exact absurd h1 (f2 ▸ lt_irrefl _)
      · exact absurd h2 (f1 ▸ lt_irrefl _)
      · cases a
        cases b
        simp only at e1 f1 g1 g2
        subst e1
        subst f1
        rw [le_antisymm g1 g2]

def sortInfos (l : List FileInfo) : List FileInfo :=
  List.insertionSort fiLex l

/-- Canonical sorted file records of one walked directory. -/
def canonFI (e : WalkEntry) : List FileInfo := sortInfos (fInfos e)

/-- Strict order on the (dir, name) sort key of line 62. -/
def fiKeyLt (a b : FileInfo) : Prop :=
  a.dir < b.dir ∨ (a.dir = b.dir ∧ a.name < b.name)

instance : IsAntisymm FileInfo fiKeyLt where
  antisymm a b hab hba := by
    rcases hab with h1 | ⟨e1, h1⟩ <;> rcases hba with h2 | ⟨e2, h2⟩
    · exact absurd h2 (lt_asymm h1)
    · exact absurd h1 (e2 ▸ lt_irrefl _)
    · exact absurd h2 (e1 ▸ lt_irrefl _)
    · exact absurd h2 (lt_asymm h1)

/-- The (dir, name) key of an `all_files_info` record. -/
def afiKey (fi : FileInfo) : Bytes × Bytes := (fi.dir, fi.name)

/-! ### Concrete inputs used in counterexamples and witnesses -/

/-- Byte string of the file name `a.bin`. -/
def aBin : Bytes := [97, 46, 98, 105, 110]

/-- The one-file tree: root directory containing `a.bin` with content
`0x01 0x02 0x03`. -/
def failTree : List WalkEntry := [⟨[46], [(aBin, [1, 2, 3])]⟩]

/-- Walk of a two-directory tree (root with files `b`, `a`; subdirectory `d`
with file `c`) in one enumeration order. -/
def walkA : List WalkEntry := [⟨[46], [([98], [7]), ([97], [5])]⟩, ⟨[100], [([99], [])]⟩]

/-- The same tree as `walkA`, enumerated in a different order. -/
def walkB : List WalkEntry := [⟨[100], [([99], [])]⟩, ⟨[46], [([97], [5]), ([98], [7])]⟩]

/-- One 48-byte FileEntry: name `ab`, marker `0xFFFFFFFE`, payload offset 0,
size1 2, size2 3. -/
def entBytes : Bytes :=
  padTrunc [97, 98] 32 ++ le32 0xFFFFFFFE ++ le32 0 ++ le32 2 ++ le32 3

/-- One 48-byte FileEntry whose payload offset (100) lies past the end of the
stream and whose sizes are 5. -/
def entShort : Bytes :=
  padTrunc [97, 98] 32 ++ le32 0xFFFFFFFE ++ le32 100 ++ le32 5 ++ le32 5

/-- A 96-byte file table holding two FileEntry records. -/
def tableBytes : Bytes :=
  (padTrunc [97] 32 ++ le32 0xFFFFFFFE ++ le32 90 ++ le32 4 ++ le32 4) ++
  (padTrunc [98] 32 ++ le32 0xFFFFFFFE ++ le32 0 ++ le32 1 ++ le32 1)

/-- WAV parameters declaring 8-bit mono PCM. -/
def wavP8 : WavParams := ⟨1, 1, 22050, 2, "NONE", "not compressed"⟩

/-- WAV parameters declaring a compressed format. -/
def wavPC : WavParams := ⟨1, 2, 22050, 1, "ADPCM", "adpcm"⟩

/-! ### Helper lemmas -/

theorem fileDataOffsets_eq_nil (afi : List FileInfo) (start : Nat) :
    fileDataOffsets afi start = [] := by
  have aux : ∀ (l : List FileInfo) (st : List (Bytes × Nat) × Nat),
      (l.foldl (fun st fi => (st.1, st.2 + fi.content.length)) st).1 = st.1 := by
    intro l
    induction l with
    | nil => intro st; rfl
    | cons fi l ih => intro st; exact ih _
  exact aux afi ([], start)

theorem collectAFI_acc (walk : List WalkEntry) (acc : List FileInfo) :
    walk.foldl (fun a e => a ++ fInfos e) acc = acc ++ collectAFI walk := by
  induction walk generalizing acc with
  | nil => simp [collectAFI]
  | cons e w ih =>
    show w.foldl _ (acc ++ fInfos e) = _
    rw [ih (acc ++ fInfos e)]
    show _ = acc ++ w.foldl _ ([] ++ fInfos e)
    rw [ih ([] ++ fInfos e)]
    simp

theorem collectAFI_cons (e : WalkEntry) (w : List WalkEntry) :
    collectAFI (e :: w) = fInfos e ++ collectAFI w := by
  show w.foldl _ ([] ++ fInfos e) = _
  rw [collectAFI_acc w ([] ++ fInfos e)]
  simp

theorem collectAFI_ne_nil {walk : List WalkEntry} {e : WalkEntry}
    (he : e ∈ walk) (hv : fInfos e ≠ []) : collectAFI walk ≠ [] := by
  induction walk with
  | nil => cases he
  | cons x w ih =>
    rw [collectAFI_cons]
    rcases List.mem_cons.mp he with rfl | hmem
    · simp [hv]
    · intro h
      rcases List.append_eq_nil.mp h with ⟨_, h2⟩
      exact ih hmem h2

theorem sortedFiles_ne_nil {afi : List FileInfo} (h : afi ≠ []) :
    sortedFiles afi ≠ [] := by
  intro hnil
  apply h
  have hp := List.perm_insertionSort fiLe afi
  rw [sortedFiles] at hnil
  rw [hnil] at hp
  exact hp.symm.eq_nil

theorem writePayload_cons_error (f : WFile) (fi : FileInfo) (rest : List FileInfo)
    (dataStart : Nat) :
    writePayload f (fi :: rest) [] dataStart = Except.error (f.seek dataStart) := rfl

theorem repackCore_fst_false (dtp : List (Bytes × List Bytes)) (afiS : List FileInfo)
    (nf : Nat) (h : afiS ≠ []) : (repackCore dtp afiS nf).1 = false := by
  obtain ⟨fi, rest, rfl⟩ := List.exists_cons_of_ne_nil h
  simp only [repackCore, fileDataOffsets_eq_nil]
  cases hdt : writeDirTable (writeHeader ⟨[], 0⟩ dtp.length nf) dtp (dirOffsets dtp) with
  | error fe => rfl
  | ok f1 =>
    cases hft : writeFileTables f1 dtp (dirOffsets dtp) (fi :: rest) [] with
    | error fe => simp [hft]
    | ok f2 => simp [hft, writePayload_cons_error]

/-- C1: the claim fails on the code.  Whenever the walked tree contains at
least one non-hidden file, `repack_pkr` returns `False` even though the
output stream opened successfully: the payload-offset dict is never
populated, so the first lookup raises `KeyError`, caught by the generic
handler which returns `False`. -/
theorem c1_repack_returns_false (walk : List WalkEntry) (e : WalkEntry)
    (he : e ∈ walk) (hv : visFiles e ≠ []) :
    (repack_pkr walk).1 = false := by
  have hfi : fInfos e ≠ [] := by
    intro h
    exact hv (List.map_eq_nil_iff.mp h)
  exact repackCore_fst_false _ _ _ (sortedFiles_ne_nil (collectAFI_ne_nil he hfi))

theorem c1_repack_returns_false_witness : (repack_pkr failTree).1 = false :=
  c1_repack_returns_false failTree ⟨[46], [(aBin, [1, 2, 3])]⟩ (by decide) (by decide)

/-- C2: the claim fails on the code.  Repacking the one-file tree crashes at
the payload-offset lookup before a single FileEntry record is written: the
output archive ends right after the 16-byte header and the 40-byte directory
table, and no 48-byte record (in particular no payload-offset field) is ever
emitted. -/
theorem c2_no_file_entry_emitted :
    (repack_pkr failTree).1 = false ∧ (repack_pkr failTree).2.length = 56 := by
  decide

/-- C3: the claim fails on the code.  For the one-file tree, repacking fails
and leaves a truncated archive; extracting those bytes yields the root
directory with no files at all, so `extract(repack(T))` does not reproduce
`T`'s file set. -/
theorem c3_roundtrip_fails :
    (repack_pkr failTree).1 = false ∧
    (extract_pkr (repack_pkr failTree).2).1 = false ∧
    (extract_pkr (repack_pkr failTree).2).2.2 = [([47], [])] := by
  decide

/-- C4: the claim fails on the code.  The directory-table half of the layout
plan is computed as described (for the one-file tree the single directory's
file table is planned at 16 + 40·1 = 56), but the file half assigns nothing:
`file_data_offsets` is identically empty for every input. -/
theorem c4_no_payload_offsets_assigned :
    (∀ (afi : List FileInfo) (start : Nat), fileDataOffsets afi start = []) ∧
    dirOffsets (dirsToPack (collectTD failTree)) = [([47], 56)] :=
  ⟨fileDataOffsets_eq_nil, by decide⟩

theorem extractOneFile_eq (f : RFile) (h : f.pos + 48 ≤ f.data.length) :
    extractOneFile f = some ((entryName f, entryPayload f),
      (if entryMarker f ≠ 0xFFFFFFFE then [Warn.badMarker (entryMarker f)] else []) ++
      ((if entryS1 f ≠ entryS2 f then [Warn.sizeMismatch (entryS1 f) (entryS2 f)] else []) ++
       (if (entryPayload f).length ≠ entryS1 f then
          [Warn.shortPayload (entryPayload f).length (entryS1 f)] else [])),
      ⟨f.data, f.pos + 48⟩) := by
  have h32 : f.pos + 32 ≤ f.data.length := by omega
  have h36 : f.pos + 32 + 4 ≤ f.data.length := by omega
  have h40 : f.pos + 36 + 4 ≤ f.data.length := by omega
  have h44 : f.pos + 40 + 4 ≤ f.data.length := by omega
  have h48 : f.pos + 44 + 4 ≤ f.data.length := by omega
  simp only [extractOneFile, RFile.readStr, RFile.read32, RFile.readRaw, RFile.seek,
    if_pos h32]
  norm_num [h36, h40, h44, h48, entryName, entryMarker, entryOff, entryS1, entryS2,
    entryPayload]

/-- C6: confirmed.  For every FileEntry with its 48 bytes available, the
payload bytes produced for the output file are exactly `size1` bytes read
from the payload offset — `size2` does not govern the read, and a size
mismatch yields precisely a warning (present exactly when the two size
fields differ). -/
theorem c6_size1_governs_read (f : RFile) (h : f.pos + 48 ≤ f.data.length) :
    ∃ w f2, extractOneFile f = some ((entryName f,
        (f.data.drop (entryOff f)).take (entryS1 f)), w, f2) ∧
      (entryS1 f ≠ entryS2 f → Warn.sizeMismatch (entryS1 f) (entryS2 f) ∈ w) ∧
      (entryS1 f = entryS2 f → ∀ a b, Warn.sizeMismatch a b ∉ w) := by
  refine ⟨_, _, extractOneFile_eq f h, ?_, ?_⟩
  · intro hne
    simp [hne]
  · intro heq a b
    simp only [heq, ne_eq, not_true_eq_false, if_neg, List.mem_append]
    intro hmem
    rcases hmem with hmem | hmem <;> split_ifs at hmem <;> simp_all

theorem c6_size1_governs_read_witness :
    ∃ w f2, extractOneFile ⟨entBytes, 0⟩ = some ((entryName ⟨entBytes, 0⟩,
        (entBytes.drop (entryOff ⟨entBytes, 0⟩)).take (entryS1 ⟨entBytes, 0⟩)), w, f2) ∧
      (entryS1 ⟨entBytes, 0⟩ ≠ entryS2 ⟨entBytes, 0⟩ →
        Warn.sizeMismatch (entryS1 ⟨entBytes, 0⟩) (entryS2 ⟨entBytes, 0⟩) ∈ w) ∧
      (entryS1 ⟨entBytes, 0⟩ = entryS2 ⟨entBytes, 0⟩ → ∀ a b, Warn.sizeMismatch a b ∉ w) :=
  c6_size1_governs_read ⟨entBytes, 0⟩ (by decide)

/-- C7: confirmed.  While a directory's file table is iterated, the saved
cursor discipline keeps the table reads contiguous: FileEntry `j` is parsed
from stream position `offset + 48·j`, and after `count` entries the stream
stands at `offset + 48·count` with the data untouched. -/
theorem c7_table_iteration_undisturbed (data : Bytes) (off count : Nat)
    (h : off + 48 * count ≤ data.length) :
    (extractFilesLoop ⟨data, off⟩ count).2.2 = some ⟨data, off + 48 * count⟩ ∧
    ∀ j, j < count →
      (extractFilesLoop ⟨data, off⟩ count).1.get? j =
        some (entryName ⟨data, off + 48 * j⟩, entryPayload ⟨data, off + 48 * j⟩) := by
  induction count generalizing off with
  | zero =>
    refine ⟨by simp [extractFilesLoop], ?_⟩
    intro j hj
    omega
  | succ n ih =>
    have hx : (⟨data, off⟩ : RFile).pos + 48 ≤ (⟨data, off⟩ : RFile).data.length := by
      show off + 48 ≤ data.length
      omega
    have he := extractOneFile_eq ⟨data, off⟩ hx
    have ih2 := ih (off + 48) (by omega)
    constructor
    · simp only [extractFilesLoop, he]
      rw [ih2.1]
      have harith : off + 48 + 48 * n = off + 48 * (n + 1) := by ring
      rw [harith]
    · intro j hj
      cases j with
      | zero =>
        simp [extractFilesLoop, he]
      | succ k =>
        simp only [extractFilesLoop, he]
        have hk := ih2.2 k (by omega)
        simp only [List.get?_cons_succ]
        rw [hk]
        have harith : off + 48 + 48 * k = off + 48 * (k + 1) := by ring
        rw [harith]

theorem c7_table_iteration_undisturbed_witness :
    (extractFilesLoop ⟨tableBytes, 0⟩ 2).2.2 = some ⟨tableBytes, 0 + 48 * 2⟩ ∧
    ∀ j, j < 2 →
      (extractFilesLoop ⟨tableBytes, 0⟩ 2).1.get? j =
        some (entryName ⟨tableBytes, 0 + 48 * j⟩, entryPayload ⟨tableBytes, 0 + 48 * j⟩) :=
  c7_table_iteration_undisturbed tableBytes 0 2 (by decide)

/-- C8: confirmed.  Header parsing succeeds for any magic and version values
whenever 16 bytes are available; a FileEntry is processed successfully for
any marker, offset and size values whenever its 48 table bytes are available
(short payload reads included); and `extract_pkr` always returns a Boolean
result — the failure paths of the embedding produce `false` rather than an
exception. -/
theorem c8_lenient_no_raise :
    (∀ b : Bytes, 16 ≤ b.length → ∃ hr, readHeader ⟨b, 0⟩ = some hr) ∧
    (∀ f : RFile, f.pos + 48 ≤ f.data.length → ∃ r, extractOneFile f = some r) ∧
    (∀ b : Bytes, (extract_pkr b).1 = false ∨ (extract_pkr b).1 = true) := by
  refine ⟨?_, ?_, ?_⟩
  · intro b hb
    have h1 : 0 + 4 ≤ b.length := by omega
    have h2 : 4 + 4 ≤ b.length := by omega
    have h3 : 8 + 4 ≤ b.length := by omega
    have h4 : 12 + 4 ≤ b.length := by omega
    refine ⟨(rd32 (b.take 4), rd32 ((b.drop 4).take 4), rd32 ((b.drop 8).take 4),
      rd32 ((b.drop 12).take 4), ⟨b, 16⟩), ?_⟩
    simp [readHeader, RFile.read32, h1, h2, h3, h4]
  · intro f h
    exact ⟨_, extractOneFile_eq f h⟩
  · intro b
    cases hres : (extract_pkr b).1
    · exact Or.inl rfl
    · exact Or.inr rfl

theorem c8_lenient_no_raise_witness :
    (∃ hr, readHeader ⟨List.replicate 16 0, 0⟩ = some hr) ∧
    (∃ r, extractOneFile ⟨List.replicate 48 0, 0⟩ = some r) :=
  ⟨c8_lenient_no_raise.1 (List.replicate 16 0) (by decide),
   c8_lenient_no_raise.2.1 ⟨List.replicate 48 0, 0⟩ (by decide)⟩

/-- C9: confirmed.  When the payload read comes up short (the offset plus
`size1` exceeds the stream length), the entry still succeeds: the output
file is produced with exactly the bytes obtained (truncated or empty), a
short-read warning is issued, and the stream state advances past the entry
so processing continues with the next one. -/
theorem c9_short_read_writes_truncated (f : RFile) (h : f.pos + 48 ≤ f.data.length)
    (hs : f.data.length < entryOff f + entryS1 f) (hpos : 0 < entryS1 f) :
    ∃ w, extractOneFile f = some ((entryName f, entryPayload f), w, ⟨f.data, f.pos + 48⟩) ∧
      (entryPayload f).length < entryS1 f ∧
      Warn.shortPayload (entryPayload f).length (entryS1 f) ∈ w := by
  have hlen : (entryPayload f).length < entryS1 f := by
    simp only [entryPayload, List.length_take, List.length_drop]
    omega
  refine ⟨_, extractOneFile_eq f h, hlen, ?_⟩
  simp [Nat.ne_of_lt hlen]

theorem c9_short_read_writes_truncated_witness :
    ∃ w, extractOneFile ⟨entShort, 0⟩ =
        some ((entryName ⟨entShort, 0⟩, entryPayload ⟨entShort, 0⟩), w, ⟨entShort, 0 + 48⟩) ∧
      (entryPayload ⟨entShort, 0⟩).length < entryS1 ⟨entShort, 0⟩ ∧
      Warn.shortPayload (entryPayload ⟨entShort, 0⟩).length (entryS1 ⟨entShort, 0⟩) ∈ w :=
  c9_short_read_writes_truncated ⟨entShort, 0⟩ (by decide) (by decide) (by decide)

theorem clip16_mem (x : ℚ) : -32768 ≤ clip16 x ∧ clip16 x ≤ 32767 := by
  unfold clip16
  constructor
  · exact le_max_left _ _
  · apply max_le
    · norm_num
    · exact min_le_left _ _

theorem qtrunc_mem {x : ℚ} (h1 : -32768 ≤ x) (h2 : x ≤ 32767) :
    -32768 ≤ qtrunc x ∧ qtrunc x ≤ 32767 := by
  unfold qtrunc
  split_ifs with hx
  · refine ⟨?_, ?_⟩
    · have h0 : (0 : ℤ) ≤ ⌊x⌋ := Int.le_floor.mpr (by exact_mod_cast hx)
      omega
    · have hfl : (⌊x⌋ : ℚ) ≤ 32767 := (Int.floor_le x).trans h2
      exact_mod_cast hfl
  · refine ⟨?_, ?_⟩
    · have hc : x ≤ (⌈x⌉ : ℚ) := Int.le_ceil x
      have hch : (-32768 : ℚ) ≤ (⌈x⌉ : ℚ) := h1.trans hc
      exact_mod_cast hch
    · have h0 : ⌈x⌉ ≤ (0 : ℤ) := Int.ceil_le.mpr (by exact_mod_cast (le_of_not_le hx))
      omega

theorem bytesToSamples_samplesToBytes (l : List Int)
    (h : ∀ v ∈ l, -32768 ≤ v ∧ v ≤ 32767) :
    bytesToSamples (samplesToBytes l) = l := by
  induction l with
  | nil => rfl
  | cons v l ih =>
    have hv := h v (List.mem_cons_self v l)
    have hrest := ih (fun x hx => h x (List.mem_cons_of_mem v hx))
    show bytesToSamples (sampleToBytes v ++ samplesToBytes l) = v :: l
    simp only [sampleToBytes]
    show bytesToSamples (_ :: _ :: samplesToBytes l) = v :: l
    simp only [bytesToSamples, hrest]
    congr 1
    have hm : ((v % 65536).toNat : Int) = v % 65536 :=
      Int.toNat_of_nonneg (Int.emod_nonneg v (by norm_num))
    rw [Nat.mod_add_div]
    split_ifs with hcase <;> omega

/-- C10: confirmed.  `adjust_volume` decodes the frame buffer as 16-bit
signed samples and clips every scaled sample into `[-32768, 32767]`; a
compression type other than `NONE` is the only format condition that makes
it return `False`, and the output frames are independent of the declared
sample width, so non-16-bit PCM is silently treated as 16-bit. -/
theorem c10_int16_reinterpretation (p : WavParams) (frames : Bytes) (factor : ℚ) :
    (p.comptype ≠ "NONE" → adjust_volume p frames factor = none) ∧
    (∀ w : Nat, adjust_volume { p with sampwidth := w } frames factor =
      (adjust_volume p frames factor).map (fun r => ({ p with sampwidth := w }, r.2))) ∧
    (p.comptype = "NONE" → frames.length % 2 = 0 →
      ∃ out, adjust_volume p frames factor = some (p, out) ∧
        ∀ s ∈ bytesToSamples out, -32768 ≤ s ∧ s ≤ 32767) := by
  refine ⟨?_, ?_, ?_⟩
  · intro hc
    simp [adjust_volume, hc]
  · intro w
    unfold adjust_volume
    split_ifs <;> simp_all
  · intro hc hlen
    refine ⟨samplesToBytes ((bytesToSamples frames).map
      (fun s => qtrunc (clip16 (s * factor)))), ?_, ?_⟩
    · simp [adjust_volume, hc, hlen]
    · rw [bytesToSamples_samplesToBytes]
      · intro s hs
        rcases List.mem_map.mp hs with ⟨x, _, rfl⟩
        exact qtrunc_mem (clip16_mem _).1 (clip16_mem _).2
      · intro v hvm
        rcases List.mem_map.mp hvm with ⟨x, _, rfl⟩
        exact qtrunc_mem (clip16_mem _).1 (clip16_mem _).2

theorem c10_int16_reinterpretation_witness :
    adjust_volume wavPC [0, 128] 2 = none ∧
    adjust_volume { wavP8 with sampwidth := 4 } [0, 128] 2 =
      (adjust_volume wavP8 [0, 128] 2).map (fun r => ({ wavP8 with sampwidth := 4 }, r.2)) ∧
    ∃ out, adjust_volume wavP8 [0, 128] 2 = some (wavP8, out) ∧
      ∀ s ∈ bytesToSamples out, -32768 ≤ s ∧ s ≤ 32767 :=
  ⟨(c10_int16_reinterpretation wavPC [0, 128] 2).1 (by decide),
   (c10_int16_reinterpretation wavP8 [0, 128] 2).2.1 4,
   (c10_int16_reinterpretation wavP8 [0, 128] 2).2.2 rfl rfl⟩

theorem sortBytes_eq_of_perm {l₁ l₂ : List Bytes} (h : l₁ ~ l₂) :
    sortBytes l₁ = sortBytes l₂ :=
  eq_of_perm_of_sorted
    ((perm_insertionSort _ _).trans (h.trans (perm_insertionSort _ _).symm))
    (sorted_insertionSort _ _) (sorted_insertionSort _ _)

theorem map_fst_sortPairs (l : List (Bytes × Bytes)) :
    (sortPairs l).map Prod.fst = sortBytes (l.map Prod.fst) := by
  apply eq_of_perm_of_sorted (r := (· ≤ · : Bytes → Bytes → Prop))
  · exact ((perm_insertionSort pairLe l).map _).trans (perm_insertionSort _ _).symm
  · have hs := sorted_insertionSort pairLe l
    rw [Sorted, pairwise_map]
    refine hs.imp ?_
    intro a b hab
    rcases hab with h | ⟨h, _⟩
    · exact le_of_lt h
    · exact le_of_eq h
  · exact sorted_insertionSort _ _

theorem canonFI_eq (e : WalkEntry) :
    canonFI e = (sortPairs (visFiles e)).map
      (fun q => FileInfo.mk (pkrDirName e.rel) q.1 q.2) := by
  apply eq_of_perm_of_sorted (r := fiLex)
  · exact (perm_insertionSort fiLex _).trans
      (((perm_insertionSort pairLe _).map _).symm)
  · exact sorted_insertionSort _ _
  · have hs := sorted_insertionSort pairLe (visFiles e)
    rw [Sorted, pairwise_map]
    refine hs.imp ?_
    intro a b hab
    rcases hab with h | ⟨h, h2⟩
    · exact Or.inr ⟨rfl, Or.inl h⟩
    · exact Or.inr ⟨rfl, Or.inr ⟨h, h2⟩⟩

theorem flatten_perm_of_perm {α : Type} {l₁ l₂ : List (List α)} (h : l₁ ~ l₂) :
    l₁.flatten ~ l₂.flatten := by
  induction h with
  | nil => exact Perm.refl _
  | cons x _ ih => simpa using ih.append_left x
  | swap x y L =>
    simp only [flatten_cons, ← append_assoc]
    exact perm_append_comm.append_right _
  | trans _ _ ih1 ih2 => exact ih1.trans ih2

theorem collectAFI_eq_flatten (walk : List WalkEntry) :
    collectAFI walk = (walk.map fInfos).flatten := by
  induction walk with
  | nil => rfl
  | cons e w ih => rw [collectAFI_cons, ih, map_cons, flatten_cons]

theorem forall2_fInfos_canonFI (w : List WalkEntry) :
    List.Forall₂ (· ~ ·) (w.map fInfos) (w.map canonFI) := by
  induction w with
  | nil => exact Forall₂.nil
  | cons e w ih => exact Forall₂.cons (perm_insertionSort fiLex _).symm ih

theorem canonFI_comp (e : WalkEntry) :
    canonFI e = (fun p : Bytes × List (Bytes × Bytes) =>
      p.2.map (fun q => FileInfo.mk p.1 q.1 q.2)) (canonE e) :=
  canonFI_eq e

theorem collectAFI_perm {w1 w2 : List WalkEntry}
    (hp : w1.map canonE ~ w2.map canonE) :
    collectAFI w1 ~ collectAFI w2 := by
  rw [collectAFI_eq_flatten, collectAFI_eq_flatten]
  have h1 : List.Perm (w1.map fInfos).flatten (w1.map canonFI).flatten :=
    Perm.flatten_congr (forall2_fInfos_canonFI w1)
  have h2 : List.Perm (w2.map fInfos).flatten (w2.map canonFI).flatten :=
    Perm.flatten_congr (forall2_fInfos_canonFI w2)
  have hmap : ∀ w : List WalkEntry, w.map canonFI = (w.map canonE).map
      (fun p => p.2.map (fun q => FileInfo.mk p.1 q.1 q.2)) := by
    intro w
    rw [map_map]
    exact map_congr_left (fun e _ => canonFI_comp e)
  have h3 : List.Perm (w1.map canonFI).flatten (w2.map canonFI).flatten := by
    rw [hmap w1, hmap w2]
    exact flatten_perm_of_perm (hp.map _)
  exact h1.trans (h3.trans h2.symm)

theorem afi_dir_mem {walk : List WalkEntry} {fi : FileInfo} (h : fi ∈ collectAFI walk) :
    fi.dir ∈ walk.map (fun e => pkrDirName e.rel) := by
  induction walk with
  | nil => cases h
  | cons e w ih =>
    rw [collectAFI_cons] at h
    rw [map_cons]
    rcases mem_append.mp h with h | h
    · rcases mem_map.mp h with ⟨p, _, rfl⟩
      exact mem_cons_self _ _
    · exact mem_cons_of_mem _ (ih h)

theorem afiKeys_nodup {walk : List WalkEntry}
    (hd : (walk.map (fun e => pkrDirName e.rel)).Nodup)
    (hf : ∀ e ∈ walk, ((visFiles e).map Prod.fst).Nodup) :
    ((collectAFI walk).map afiKey).Nodup := by
  induction walk with
  | nil => exact nodup_nil
  | cons e w ih =>
    rw [map_cons, nodup_cons] at hd
    rw [collectAFI_cons, map_append]
    refine nodup_append.mpr ⟨?_, ih hd.2 (fun x hx => hf x (mem_cons_of_mem _ hx)), ?_⟩
    · have hmap : (fInfos e).map afiKey =
          ((visFiles e).map Prod.fst).map (fun n => (pkrDirName e.rel, n)) := by
        simp only [fInfos, map_map]
        rfl
      rw [hmap]
      refine (hf e (mem_cons_self _ _)).map ?_
      intro a b hab
      exact (Prod.mk.injEq _ _ _ _).mp hab |>.2
    · intro a ha hb
      rcases mem_map.mp ha with ⟨fi, hfi, rfl⟩
      rcases mem_map.mp hb with ⟨fj, hfj, hkey⟩
      rcases mem_map.mp hfi with ⟨p, _, rfl⟩
      have hdir : fj.dir ∈ w.map (fun e => pkrDirName e.rel) := afi_dir_mem hfj
      have hde : fj.dir = pkrDirName e.rel := by
        have := congrArg Prod.fst hkey
        simpa [afiKey] using this
      rw [hde] at hdir
      exact hd.1 hdir

theorem sortedFiles_eq_of_perm {afi₁ afi₂ : List FileInfo} (h : afi₁ ~ afi₂)
    (nd : (afi₁.map afiKey).Nodup) :
    sortedFiles afi₁ = sortedFiles afi₂ := by
  have hperm : List.Perm (sortedFiles afi₁) (sortedFiles afi₂) :=
    (perm_insertionSort _ _).trans (h.trans (perm_insertionSort _ _).symm)
  have nd0 : afi₁.Pairwise (fun a b => afiKey a ≠ afiKey b) := pairwise_map.mp nd
  have nd1 : (sortedFiles afi₁).Pairwise (fun a b => afiKey a ≠ afiKey b) :=
    ((perm_insertionSort fiLe afi₁).pairwise_iff (fun h' => h' ∘ Eq.symm)).mpr nd0
  have nd2 : (sortedFiles afi₂).Pairwise (fun a b => afiKey a ≠ afiKey b) :=
    (hperm.pairwise_iff (fun h' => h' ∘ Eq.symm)).mp nd1
  have step : ∀ {a b : FileInfo}, fiLe a b → afiKey a ≠ afiKey b → fiKeyLt a b := by
    intro a b hab hne
    rcases hab with h1 | ⟨h1, h2⟩
    · exact Or.inl h1
    · refine Or.inr ⟨h1, lt_of_le_of_ne h2 ?_⟩
      intro hnn
      exact hne (by simp [afiKey, h1, hnn])
  have hs1 : Sorted fiKeyLt (sortedFiles afi₁) := by
    have hsle : Sorted fiLe (sortedFiles afi₁) := sorted_insertionSort _ _
    exact (hsle.and nd1).imp (fun hab => step hab.1 hab.2)
  have hs2 : Sorted fiKeyLt (sortedFiles afi₂) := by
    have hsle : Sorted fiLe (sortedFiles afi₂) := sorted_insertionSort _ _
    exact (hsle.and nd2).imp (fun hab => step hab.1 hab.2)
  exact eq_of_perm_of_sorted hperm hs1 hs2

theorem dictExtend_append {d : List (Bytes × List Bytes)} {k : Bytes} (vs : List Bytes)
    (h : ∀ p ∈ d, p.1 ≠ k) : dictExtend d k vs = d ++ [(k, vs)] := by
  induction d with
  | nil => rfl
  | cons p rest ih =>
    obtain ⟨k', vs'⟩ := p
    have hne : k' ≠ k := h (k', vs') (mem_cons_self _ _)
    simp only [dictExtend, if_neg hne, cons_append, cons.injEq, true_and]
    exact ih (fun q hq => h q (mem_cons_of_mem _ hq))

theorem collectTD_aux (walk : List WalkEntry) (d : List (Bytes × List Bytes))
    (hnd : (walk.map (fun e => pkrDirName e.rel)).Nodup)
    (hdisj : ∀ p ∈ d, ∀ e ∈ walk, p.1 ≠ pkrDirName e.rel) :
    walk.foldl (fun td e =>
        dictExtend td (pkrDirName e.rel) ((visFiles e).map Prod.fst)) d =
      d ++ walk.map (fun e => (pkrDirName e.rel, (visFiles e).map Prod.fst)) := by
  induction walk generalizing d with
  | nil => simp
  | cons e w ih =>
    rw [map_cons, nodup_cons] at hnd
    simp only [foldl_cons]
    rw [dictExtend_append _ (fun p hp => hdisj p hp e (mem_cons_self _ _))]
    rw [ih (d ++ [(pkrDirName e.rel, (visFiles e).map Prod.fst)]) hnd.2 ?_]
    · simp
    · intro p hp e' he'
      rcases mem_append.mp hp with hp | hp
      · exact hdisj p hp e' (mem_cons_of_mem _ he')
      · rcases mem_singleton.mp hp with rfl
        intro hcontra
        have hc2 : pkrDirName e.rel = pkrDirName e'.rel := hcontra
        refine hnd.1 ?_
        rw [hc2]
        exact mem_map.mpr ⟨e', he', rfl⟩

theorem collectTD_eq (walk : List WalkEntry)
    (hnd : (walk.map (fun e => pkrDirName e.rel)).Nodup) :
    collectTD walk = walk.map (fun e => (pkrDirName e.rel, (visFiles e).map Prod.fst)) := by
  have h := collectTD_aux walk [] hnd (by intro p hp; cases hp)
  simpa [collectTD] using h

theorem dictFind_map {β : Type} (l : List WalkEntry) (ke : WalkEntry → Bytes)
    (ve : WalkEntry → β) (k : Bytes) :
    dictFind (l.map (fun e => (ke e, ve e))) k =
      (l.find? (fun e => ke e == k)).map ve := by
  induction l with
  | nil => rfl
  | cons e w ih =>
    by_cases h : ke e = k
    · simp [dictFind, h, find?_cons_of_pos]
    · rw [map_cons]
      show dictFind ((ke e, ve e) :: _) k = _
      rw [dictFind, if_neg h, ih, find?_cons_of_neg]
      simpa using h

theorem dictFind_perm {α : Type} {l₁ l₂ : List (Bytes × α)} (h : l₁ ~ l₂)
    (nd : (l₁.map Prod.fst).Nodup) (k : Bytes) :
    dictFind l₁ k = dictFind l₂ k := by
  induction h with
  | nil => rfl
  | cons p h ih =>
    obtain ⟨k', v⟩ := p
    rw [map_cons, nodup_cons] at nd
    by_cases hk : k' = k <;> simp [dictFind, hk, ih nd.2]
  | swap p q L =>
    obtain ⟨k1, v1⟩ := p
    obtain ⟨k2, v2⟩ := q
    simp only [map_cons, nodup_cons, mem_cons, mem_map] at nd
    by_cases h1 : k1 = k <;> by_cases h2 : k2 = k <;>
      simp [dictFind, h1, h2]
    exact absurd (h1.trans h2.symm).symm (fun hcc => nd.1 (Or.inl hcc))
  | trans h1 h2 ih1 ih2 =>
    rw [ih1 nd, ih2 (((h1.map Prod.fst).nodup_iff).mp nd)]

theorem dirsToPack_eq {w1 w2 : List WalkEntry}
    (hd1 : (w1.map (fun e => pkrDirName e.rel)).Nodup)
    (hd2 : (w2.map (fun e => pkrDirName e.rel)).Nodup)
    (hp : w1.map canonE ~ w2.map canonE) :
    dirsToPack (collectTD w1) = dirsToPack (collectTD w2) := by
  have hdirs : w1.map (fun e => pkrDirName e.rel) ~ w2.map (fun e => pkrDirName e.rel) := by
    have hh := hp.map Prod.fst
    rw [map_map, map_map] at hh
    exact hh
  have hkeys : (collectTD w1).map Prod.fst ~ (collectTD w2).map Prod.fst := by
    rw [collectTD_eq w1 hd1, collectTD_eq w2 hd2, map_map, map_map]
    exact hdirs
  unfold dirsToPack
  rw [sortBytes_eq_of_perm hkeys]
  apply map_congr_left
  intro k hk
  have hfind1 : dictFind (collectTD w1) k =
      (w1.find? (fun e => pkrDirName e.rel == k)).map
        (fun e => (visFiles e).map Prod.fst) := by
    rw [collectTD_eq w1 hd1]
    exact dictFind_map w1 _ _ k
  have hfind2 : dictFind (collectTD w2) k =
      (w2.find? (fun e => pkrDirName e.rel == k)).map
        (fun e => (visFiles e).map Prod.fst) := by
    rw [collectTD_eq w2 hd2]
    exact dictFind_map w2 _ _ k
  have hcanon : dictFind (w1.map canonE) k = dictFind (w2.map canonE) k := by
    refine dictFind_perm hp ?_ k
    rw [map_map]
    exact hd1
  have hc1 : dictFind (w1.map canonE) k =
      (w1.find? (fun e => pkrDirName e.rel == k)).map
        (fun e => sortPairs (visFiles e)) :=
    dictFind_map w1 _ _ k
  have hc2 : dictFind (w2.map canonE) k =
      (w2.find? (fun e => pkrDirName e.rel == k)).map
        (fun e => sortPairs (visFiles e)) :=
    dictFind_map w2 _ _ k
  rw [hc1, hc2] at hcanon
  simp only [hfind1, hfind2]
  cases ho1 : w1.find? (fun e => pkrDirName e.rel == k) with
  | none =>
    cases ho2 : w2.find? (fun e => pkrDirName e.rel == k) with
    | none => rfl
    | some e2 =>
      rw [ho1, ho2] at hcanon
      simp at hcanon
  | some e1 =>
    cases ho2 : w2.find? (fun e => pkrDirName e.rel == k) with
    | none =>
      rw [ho1, ho2] at hcanon
      simp at hcanon
    | some e2 =>
      rw [ho1, ho2] at hcanon
      have hsv : sortPairs (visFiles e1) = sortPairs (visFiles e2) := by
        simpa using hcanon
      simp only [Option.map_some', Option.getD_some]
      rw [← map_fst_sortPairs, ← map_fst_sortPairs, hsv]

/-- C5: confirmed.  The archive bytes produced by `repack_pkr` (and its
success flag) are a function of the tree alone: two walks of the same
tree — same set of directories with the same visible files, whatever order
the filesystem enumerates them in — yield identical output, because the
writer sorts directory names, per-directory file names and the global file
list before computing the layout.  In particular two runs on an unchanged
tree are byte-identical. -/
theorem c5_layout_determinism (w1 w2 : List WalkEntry)
    (hd1 : (w1.map (fun e => pkrDirName e.rel)).Nodup)
    (hd2 : (w2.map (fun e => pkrDirName e.rel)).Nodup)
    (hf1 : ∀ e ∈ w1, ((visFiles e).map Prod.fst).Nodup)
    (hp : w1.map canonE ~ w2.map canonE) :
    repack_pkr w1 = repack_pkr w2 := by
  have hafi : collectAFI w1 ~ collectAFI w2 := collectAFI_perm hp
  have hnd : ((collectAFI w1).map afiKey).Nodup := afiKeys_nodup hd1 hf1
  unfold repack_pkr
  rw [dirsToPack_eq hd1 hd2 hp, sortedFiles_eq_of_perm hafi hnd, hafi.length_eq]

theorem c5_layout_determinism_witness : repack_pkr walkA = repack_pkr walkB :=
  c5_layout_determinism walkA walkB (by decide) (by decide) (by decide) (by decide)
